import Mathlib

/-!
Verification of CESNET/bloom-filter-index.

The repository's `src/bf_index.c` (second-generation `bfi_*` API) and the C
wrapper `bloomf_wrapper.cpp` are embedded directly.  The Bloom filter engine
itself lives in `BloomFilter.hpp`, which is not among the provided sources;
its operations (`contains`, `insert`, `containsinsert`, `clear`,
`get_filter_as_bytes`, `load_filter_from_bytes`, parameter optimization) are
therefore modelled from the specification (spec sections 3, 4.1 to 4.5).

Bytes are modelled as natural numbers (values below 256 on well-formed data),
byte streams as `List Nat`, machine-integer truncation as `% 2 ^ w` where the
width matters.  File I/O is modelled by passing the file's byte content
explicitly: a store operation returns `Option (List Nat)` describing the
written file (`none` = the file was never opened), a load operation receives
`Option (List Nat)` (`none` = the file could not be opened).
-/

/-- Bytes per word of the packed bit table: bits are packed 8 per byte,
least-significant-bit first (spec section 4.3). -/
def bits_per_byte : Nat := 8

/-- Modelled from the spec (section 3, BloomFilter): the persistent entity of
`BloomFilter.hpp`, which is not under the provided sources.  It owns a bit
array of `table_size_bits` bits stored as `ceil(table_size_bits/8)` bytes, the
per-hash `salt` sequence (`hash_function_count` is its length), and the
distinct-insertion counter `inserted_element_count`. -/
structure bloom_filter where
  table_size_bits : Nat
  salt : List Nat
  inserted_element_count : Nat
  bit_table : List Nat
deriving Repr, DecidableEq

/-- Number of hash functions: one per salt (spec section 3). -/
def bloom_filter.hash_function_count (f : bloom_filter) : Nat :=
  f.salt.length

/-- Modelled from the spec (section 4.4, state machine): the filter produced
by the default `bloom_filter()` constructor of the missing `BloomFilter.hpp`
is Uninitialized: empty bit table, no salts, zero counter. -/
def empty_bloom_filter : bloom_filter :=
  ⟨0, [], 0, []⟩

/-- Structural invariant of a Ready filter (spec section 4.4): the byte table
holds exactly `ceil(table_size_bits/8)` bytes. -/
def Ready (f : bloom_filter) : Prop :=
  f.bit_table.length = (f.table_size_bits + 7) / bits_per_byte

instance (f : bloom_filter) : Decidable (Ready f) := by
  unfold Ready; infer_instance

/-- Modelled from the spec (section 4.2, Hash Family): one fast deterministic
non-cryptographic base hash, seeded independently per salt; the exact mixing
function of the missing `BloomFilter.hpp` is not visible, so a simple
64-bit multiply-add mix over the item bytes is used. -/
def hash_one (salt : Nat) (item : List Nat) : Nat :=
  item.foldl (fun h b => (h * 33 + b + salt) % 2 ^ 64) (salt % 2 ^ 64)

/-- Modelled from the spec (section 4.2): `hash_all` yields one bit index per
salt, each reduced modulo `table_size_bits`. -/
def hash_all (salts : List Nat) (m : Nat) (item : List Nat) : List Nat :=
  salts.map fun s => hash_one s item % m

/-- Test bit `i` of the packed byte table (LSB-first within a byte,
spec section 4.3); out-of-range bytes read as 0. -/
def test_bit (table : List Nat) (i : Nat) : Bool :=
  Nat.testBit (table.getD (i / bits_per_byte) 0) (i % bits_per_byte)

/-- Set bit `i` of the packed byte table (LSB-first within a byte,
spec section 4.3); a no-op when the byte index is out of range. -/
def set_bit (table : List Nat) (i : Nat) : List Nat :=
  table.set (i / bits_per_byte)
    (table.getD (i / bits_per_byte) 0 ||| 2 ^ (i % bits_per_byte))

/-- Modelled from the spec (section 4.4): `contains` is true iff all `k`
hashed positions are set. -/
def bloom_filter.contains (f : bloom_filter) (item : List Nat) : Bool :=
  (hash_all f.salt f.table_size_bits item).all fun i => test_bit f.bit_table i

/-- Modelled from the spec (section 4.4): `insert` sets each of the `k`
hashed positions and does not touch `inserted_element_count`. -/
def bloom_filter.insert (f : bloom_filter) (item : List Nat) : bloom_filter :=
  { f with bit_table :=
      (hash_all f.salt f.table_size_bits item).foldl set_bit f.bit_table }

/-- Modelled from the spec (section 4.4): `containsinsert` tests membership;
if all `k` bits were already set it returns `true` without mutation,
otherwise it sets the missing bits, increments `inserted_element_count` by 1
and returns `false`. -/
def bloom_filter.containsinsert (f : bloom_filter) (item : List Nat) :
    Bool × bloom_filter :=
  if f.contains item then (true, f)
  else (false,
    { f.insert item with inserted_element_count := f.inserted_element_count + 1 })

/-- Modelled from the spec (section 4.4): `clear` zeroes the bit array and
resets `inserted_element_count`; parameters are retained. -/
def bloom_filter.clear (f : bloom_filter) : bloom_filter :=
  { f with bit_table := f.bit_table.map fun _ => 0
         , inserted_element_count := 0 }

/-- A filter freshly built from validated parameters (spec section 3):
all-zero bit table of `ceil(m/8)` bytes, zero counter. -/
def fresh_filter (m : Nat) (salts : List Nat) : bloom_filter :=
  ⟨m, salts, 0, List.replicate ((m + 7) / bits_per_byte) 0⟩

/-- Run a sequence of `containsinsert` calls, collecting the final filter and
the list of returned Booleans. -/
def run_containsinsert : bloom_filter → List (List Nat) →
    bloom_filter × List Bool
  | f, [] => (f, [])
  | f, x :: xs =>
      let r := f.containsinsert x
      let rest := run_containsinsert r.2 xs
      (rest.1, r.1 :: rest.2)

/-- States reachable from `f` by any sequence of `insert` / `containsinsert`
calls, with no intervening `clear`. -/
inductive reaches_without_clear : bloom_filter → bloom_filter → Prop where
  | refl (f : bloom_filter) : reaches_without_clear f f
  | step_insert {f g : bloom_filter} (y : List Nat) :
      reaches_without_clear f g → reaches_without_clear f (g.insert y)
  | step_containsinsert {f g : bloom_filter} (y : List Nat) :
      reaches_without_clear f g →
      reaches_without_clear f (g.containsinsert y).2

/-- A small concrete Ready filter used to exercise the theorems on concrete
inputs: 8 bits of table, two salts, counter 3, one byte 171 of bit table. -/
def sample_filter : bloom_filter :=
  ⟨8, [1, 2], 3, [171]⟩

/-! ## Little-endian integer encoding and the serialized payload -/

/-- Little-endian encoding of `v` into `n` bytes (truncates above `2^(8n)`). -/
def toLE : Nat → Nat → List Nat
  | 0, _ => []
  | n + 1, v => v % 256 :: toLE n (v / 256)

/-- Little-endian decoding of a byte list. -/
def fromLE : List Nat → Nat
  | [] => 0
  | b :: bs => b + 256 * fromLE bs

/-- Read `k` little-endian `u32` values from the front of a byte stream. -/
def read_u32s : Nat → List Nat → List Nat
  | 0, _ => []
  | k + 1, bs => fromLE (bs.take 4) :: read_u32s k (bs.drop 4)

/-- Modelled from the spec (sections 3 and 4.5): the payload emitted by
`get_filter_as_bytes` of the missing `BloomFilter.hpp` encodes, in a fixed
order, `table_size_bits` (u64), `hash_function_count` (u32),
`inserted_element_count` (u64, required so that the counter round-trips),
the `salt` values (u32 each) and the raw bit-array bytes. -/
def get_filter_as_bytes (f : bloom_filter) : List Nat :=
  toLE 8 f.table_size_bits ++ toLE 4 f.salt.length ++
    toLE 8 f.inserted_element_count ++ (f.salt.flatMap (toLE 4)) ++ f.bit_table

/-- Modelled from the spec (section 4.5): `load_filter_from_bytes` of the
missing `BloomFilter.hpp` parses the payload back; any internal inconsistency
(truncated metadata, or a bit-array length not matching `table_size_bits`)
fails (`none`). -/
def load_filter_from_bytes (bs : List Nat) : Option bloom_filter :=
  if bs.length < 20 then none else
  let m := fromLE (bs.take 8)
  let rest1 := bs.drop 8
  let k := fromLE (rest1.take 4)
  let rest2 := rest1.drop 4
  let cnt := fromLE (rest2.take 8)
  let rest3 := rest2.drop 8
  if rest3.length < 4 * k then none else
  let salts := read_u32s k rest3
  let bits := rest3.drop (4 * k)
  if bits.length = (m + 7) / bits_per_byte then some ⟨m, salts, cnt, bits⟩
  else none

/-! ## The `bfi_*` facade of `src/bf_index.c` -/

/-- Error codes of `include/bf_index.h`. -/
inductive bfi_ecode_t where
  | BFI_E_OK
  | BFI_E_BP_COMP_PARAMS
  | BFI_E_NO_INDEX
  | BFI_E_STO_FILE_ERR
  | BFI_E_STO_BYTES
  | BFI_E_STO_MAGIC
  | BFI_E_STO_IDX_LEN
  | BFI_E_STO_INDEX
  | BFI_E_LOAD_MEM
  | BFI_E_LOAD_FILE_ERR
  | BFI_E_LOAD_BYTES
  | BFI_E_LOAD_MAGIC
  | BFI_E_LOAD_BAD_MAGIC
  | BFI_E_LOAD_IDX_LEN
  | BFI_E_LOAD_ZERO_LEN
  | BFI_E_LOAD_INDEX
deriving Repr, DecidableEq

export bfi_ecode_t (BFI_E_OK BFI_E_NO_INDEX BFI_E_STO_BYTES BFI_E_LOAD_FILE_ERR
  BFI_E_LOAD_BAD_MAGIC BFI_E_LOAD_IDX_LEN BFI_E_LOAD_ZERO_LEN BFI_E_LOAD_INDEX
  BFI_E_LOAD_BYTES)

/-- The `BFI_MAGIC` u16 constant (`bf_index.c` writes it as
`BFI_FILE_MAGIC`).  Its numeric value is defined in a header that is not
among the provided sources; the claims are independent of the value, so a
fixed representative u16 constant is used. -/
def BFI_FILE_MAGIC : Nat := 0xB1F1

/-- An index handle (`bfi_index_ptr_t`): `none` models a NULL pointer. -/
def bfi_index_ptr_t := Option bloom_filter

/-- Function `bfi_add_addr_index` of `bf_index.c`: NULL handle yields
`BFI_E_NO_INDEX`; otherwise `bf_containsinsert` runs on the filter.  The
returned filter is the handle's state after the call. -/
def bfi_add_addr_index (index_ptr : Option bloom_filter) (buffer : List Nat) :
    bfi_ecode_t × Option bloom_filter :=
  match index_ptr with
  | none => (BFI_E_NO_INDEX, none)
  | some f => (BFI_E_OK, some (f.containsinsert buffer).2)

/-- Function `bfi_clear_index` of `bf_index.c`: NULL handle yields `BFI_E_NO_INDEX`;
otherwise `bf_clear` runs on the filter. -/
def bfi_clear_index (index_ptr : Option bloom_filter) :
    bfi_ecode_t × Option bloom_filter :=
  match index_ptr with
  | none => (BFI_E_NO_INDEX, none)
  | some f => (BFI_E_OK, some f.clear)

/-- Function `bfi_addr_is_stored` of `bf_index.c`: `bf_contains` when the handle is
set, `false` for a NULL handle. -/
def bfi_addr_is_stored (index_ptr : Option bloom_filter) (buffer : List Nat) :
    Bool :=
  match index_ptr with
  | none => false
  | some f => f.contains buffer

/-- Function `bfi_stored_item_cnt` of `bf_index.c`: the filter's
`inserted_element_count`, or 0 for a NULL handle. -/
def bfi_stored_item_cnt (index_ptr : Option bloom_filter) : Nat :=
  match index_ptr with
  | none => 0
  | some f => f.inserted_element_count

/-- Function `bfi_store_index` of `bf_index.c`.  The second component describes the
destination file: `none` means the file was never opened, `some bytes` means
the file was created (truncated) and holds `bytes`.  The NULL check precedes
the `fopen`; a zero-length byte representation fails with `BFI_E_STO_BYTES`
after the file was created but before anything was written; otherwise the
stream is the u16 magic, the u32 byte length of the payload, then the
payload.  (`filename` only names the destination; successful opening is
assumed.) -/
def bfi_store_index (index_ptr : Option bloom_filter) (filename : String) :
    bfi_ecode_t × Option (List Nat) :=
  match index_ptr, filename with
  | none, _ => (BFI_E_NO_INDEX, none)
  | some f, _ =>
    let bf_bytes := get_filter_as_bytes f
    if bf_bytes.length = 0 then (BFI_E_STO_BYTES, some [])
    else (BFI_E_OK,
      some (toLE 2 BFI_FILE_MAGIC ++ toLE 4 bf_bytes.length ++ bf_bytes))

/-- Function `bfi_load_index` of `bf_index.c`.  `content` is what `fopen`+`fread` can
see: `none` when the file cannot be opened (then the destination `dest0` is
untouched), `some s` for a readable stream.  As in the C code, the
destination is overwritten with a freshly created empty filter *before* any
byte of the stream is examined; the magic comparison is the first decision
taken on the stream's content, then the u32 length is read and checked
against 0, then exactly that many payload bytes are required and handed to
`load_filter_from_bytes`. -/
def bfi_load_index (content : Option (List Nat))
    (dest0 : Option bloom_filter) : bfi_ecode_t × Option bloom_filter :=
  match content with
  | none => (BFI_E_LOAD_FILE_ERR, dest0)
  | some s =>
    let dest := some empty_bloom_filter
    if s.length < 2 then (BFI_E_LOAD_IDX_LEN, dest) else
    if fromLE (s.take 2) ≠ BFI_FILE_MAGIC then (BFI_E_LOAD_BAD_MAGIC, dest) else
    let r1 := s.drop 2
    if r1.length < 4 then (BFI_E_LOAD_IDX_LEN, dest) else
    let index_len := fromLE (r1.take 4)
    if index_len = 0 then (BFI_E_LOAD_ZERO_LEN, dest) else
    let body := r1.drop 4
    if body.length < index_len then (BFI_E_LOAD_INDEX, dest) else
    match load_filter_from_bytes (body.take index_len) with
    | none => (BFI_E_LOAD_BYTES, dest)
    | some f => (BFI_E_OK, some f)

/-! ## Parameter optimization (spec section 4.1) -/

/-- Modelled from the spec (section 4.1): fixed implementation ceiling on the
hash count. -/
def max_supported_hashes : Nat := 32

/-- Modelled from the spec (section 4.1): bit-array size
`m = ceil(-n * ln(p) / (ln 2)^2)`, minimum 8, rounded up to a whole number
of bytes.  The `compute_optimal_parameters` of the missing `BloomFilter.hpp`
is not visible; this follows the spec's formula. -/
noncomputable def optimal_m (n : Nat) (p : ℝ) : Nat :=
  bits_per_byte *
    ((max ⌈-(n : ℝ) * Real.log p / (Real.log 2) ^ 2⌉₊ 8 + 7) / bits_per_byte)

/-- Modelled from the spec (section 4.1): hash count
`k = round((m / n) * ln 2)`, clamped to `[1, max_supported_hashes]`. -/
noncomputable def optimal_k (n : Nat) (p : ℝ) : Nat :=
  min (max (round ((optimal_m n p : ℝ) / (n : ℝ) * Real.log 2)).toNat 1)
    max_supported_hashes

open Classical in
/-- Modelled from the spec (section 4.1): `compute_optimal_parameters` on
`(n, p)` yields the bit-array size and hash count, and fails when the
preconditions `n > 0`, `0 < p < 1` are violated. -/
noncomputable def compute_optimal_parameters (n : Nat) (p : ℝ) :
    Option (Nat × Nat) :=
  if 0 < n ∧ 0 < p ∧ p < 1 then some (optimal_m n p, optimal_k n p) else none

/-! ## Helper lemmas: little-endian encoding -/

lemma toLE_length (n v : Nat) : (toLE n v).length = n := by
  induction n generalizing v with
  | zero => rfl
  | succ n ih => simp [toLE, ih]

lemma fromLE_toLE (n v : Nat) : fromLE (toLE n v) = v % 256 ^ n := by
  induction n generalizing v with
  | zero => simp [toLE, fromLE, Nat.mod_one]
  | succ n ih =>
      simp only [toLE, fromLE, ih]
      rw [pow_succ, mul_comm (256 ^ n) 256, Nat.mod_mul]

lemma fromLE_toLE_of_lt {n v : Nat} (h : v < 256 ^ n) :
    fromLE (toLE n v) = v := by
  rw [fromLE_toLE, Nat.mod_eq_of_lt h]

lemma take_toLE_append (n v : Nat) (rest : List Nat) :
    (toLE n v ++ rest).take n = toLE n v := by
  rw [List.take_left' (toLE_length n v)]

lemma drop_toLE_append (n v : Nat) (rest : List Nat) :
    (toLE n v ++ rest).drop n = rest := by
  rw [List.drop_left' (toLE_length n v)]

lemma flatMap_toLE4_length (salts : List Nat) :
    (salts.flatMap (toLE 4)).length = 4 * salts.length := by
  induction salts with
  | nil => rfl
  | cons s rest ih => simp [List.flatMap_cons, toLE_length, ih]; ring

lemma read_u32s_flatMap (salts rest : List Nat)
    (h : ∀ s ∈ salts, s < 2 ^ 32) :
    read_u32s salts.length (salts.flatMap (toLE 4) ++ rest) = salts := by
  induction salts with
  | nil => rfl
  | cons s tl ih =>
      have hs : s < 256 ^ 4 := by
        have := h s (List.mem_cons_self s tl); norm_num at this ⊢; omega
      simp only [List.flatMap_cons, List.length_cons, read_u32s,
        List.append_assoc, take_toLE_append, drop_toLE_append]
      rw [fromLE_toLE_of_lt hs]
      exact congrArg _ (ih fun x hx => h x (List.mem_cons_of_mem s hx))

lemma drop_flatMap_toLE4 (salts rest : List Nat) :
    (salts.flatMap (toLE 4) ++ rest).drop (4 * salts.length) = rest := by
  rw [List.drop_left']
  rw [flatMap_toLE4_length]

/-! ## Helper lemmas: payload round trip -/

lemma get_filter_as_bytes_length (f : bloom_filter) :
    (get_filter_as_bytes f).length =
      20 + 4 * f.salt.length + f.bit_table.length := by
  simp only [get_filter_as_bytes, List.length_append, toLE_length,
    flatMap_toLE4_length]

lemma get_filter_as_bytes_ne_nil (f : bloom_filter) :
    (get_filter_as_bytes f).length ≠ 0 := by
  rw [get_filter_as_bytes_length]; omega

lemma load_get_filter_as_bytes (f : bloom_filter) (hr : Ready f)
    (hm : f.table_size_bits < 2 ^ 64)
    (hc : f.inserted_element_count < 2 ^ 64)
    (hk : f.salt.length < 2 ^ 32)
    (hs : ∀ s ∈ f.salt, s < 2 ^ 32) :
    load_filter_from_bytes (get_filter_as_bytes f) = some f := by
  have hm' : f.table_size_bits < 256 ^ 8 := by norm_num at hm ⊢; omega
  have hc' : f.inserted_element_count < 256 ^ 8 := by norm_num at hc ⊢; omega
  have hk' : f.salt.length < 256 ^ 4 := by norm_num at hk ⊢; omega
  unfold load_filter_from_bytes
  simp only [get_filter_as_bytes, List.append_assoc]
  rw [if_neg (by
    simp only [List.length_append, toLE_length, flatMap_toLE4_length]; omega)]
  simp only [take_toLE_append, drop_toLE_append, fromLE_toLE_of_lt hm',
    fromLE_toLE_of_lt hc', fromLE_toLE_of_lt hk']
  rw [if_neg (by
    simp only [List.length_append, flatMap_toLE4_length]; omega)]
  rw [read_u32s_flatMap _ _ hs, drop_flatMap_toLE4,
    if_pos (show f.bit_table.length = (f.table_size_bits + 7) / bits_per_byte
      from hr)]

/-! ## Helper lemmas: the packed bit table -/

lemma length_set_bit (t : List Nat) (i : Nat) :
    (set_bit t i).length = t.length := by
  simp [set_bit]

lemma length_foldl_set_bit (ps : List Nat) (t : List Nat) :
    (ps.foldl set_bit t).length = t.length := by
  induction ps generalizing t with
  | nil => rfl
  | cons p ps ih => simp [List.foldl_cons, ih, length_set_bit]

lemma getD_set_bit_self {t : List Nat} {i : Nat}
    (h : i / bits_per_byte < t.length) :
    (set_bit t i).getD (i / bits_per_byte) 0 =
      t.getD (i / bits_per_byte) 0 ||| 2 ^ (i % bits_per_byte) := by
  simp [set_bit, List.getD_eq_getElem?_getD, List.getElem?_set_self', h,
    List.getElem?_eq_getElem]

lemma test_bit_set_bit_self {t : List Nat} {i : Nat}
    (h : i / bits_per_byte < t.length) :
    test_bit (set_bit t i) i = true := by
  simp only [test_bit]
  rw [getD_set_bit_self h]
  simp [Nat.testBit_or]

lemma test_bit_set_bit_mono {t : List Nat} {i : Nat} (j : Nat)
    (h : test_bit t i = true) : test_bit (set_bit t j) i = true := by
  by_cases hlt : j / bits_per_byte < t.length
  · by_cases hij : i / bits_per_byte = j / bits_per_byte
    · simp only [test_bit, hij] at h ⊢
      rw [getD_set_bit_self hlt]
      simp only [Nat.testBit_or, Bool.or_eq_true]
      exact Or.inl (by simpa [List.getD_eq_getElem?_getD] using h)
    · simpa [test_bit, set_bit, List.getD_eq_getElem?_getD,
        List.getElem?_set_ne (by omega : j / bits_per_byte ≠ i / bits_per_byte)]
        using h
  · rw [set_bit, List.set_eq_of_length_le (by omega)]
    exact h

lemma test_bit_foldl_set_bit_mono {ps : List Nat} {t : List Nat} {i : Nat}
    (h : test_bit t i = true) : test_bit (ps.foldl set_bit t) i = true := by
  induction ps generalizing t with
  | nil => exact h
  | cons p ps ih => exact ih (test_bit_set_bit_mono p h)

lemma test_bit_foldl_set_bit_mem {ps : List Nat} {t : List Nat} {p : Nat}
    (hp : p ∈ ps) (hlt : p / bits_per_byte < t.length) :
    test_bit (ps.foldl set_bit t) p = true := by
  induction ps generalizing t with
  | nil => cases hp
  | cons q ps ih =>
      rw [List.foldl_cons]
      rcases List.mem_cons.mp hp with rfl | hp'
      · exact test_bit_foldl_set_bit_mono (test_bit_set_bit_self hlt)
      · exact ih hp' (by rw [length_set_bit]; exact hlt)

lemma test_bit_zero_table (n i : Nat) :
    test_bit (List.replicate n 0) i = false := by
  simp only [test_bit]
  have : (List.replicate n (0 : Nat)).getD (i / bits_per_byte) 0 = 0 := by
    rcases lt_or_ge (i / bits_per_byte) n with h | h
    · simp [List.getD_eq_getElem?_getD, List.getElem?_replicate, h]
    · rw [List.getD_eq_default]
      simpa using h
  rw [this]
  exact Nat.zero_testBit _

/-! ## Helper lemmas: the filter engine -/

lemma hash_all_lt {salts : List Nat} {m : Nat} (hm : 0 < m) (x : List Nat) :
    ∀ i ∈ hash_all salts m x, i < m := by
  intro i hi
  obtain ⟨s, -, rfl⟩ := List.mem_map.mp hi
  exact Nat.mod_lt _ hm

lemma bit_byte_lt {i m : Nat} (hi : i < m) :
    i / bits_per_byte < (m + 7) / bits_per_byte := by
  simp only [bits_per_byte]
  omega

lemma insert_table_size (f : bloom_filter) (x : List Nat) :
    (f.insert x).table_size_bits = f.table_size_bits := rfl

lemma insert_salt (f : bloom_filter) (x : List Nat) :
    (f.insert x).salt = f.salt := rfl

lemma contains_insert_self {f : bloom_filter} (x : List Nat) (hr : Ready f)
    (hm : 0 < f.table_size_bits) : (f.insert x).contains x = true := by
  simp only [bloom_filter.contains, bloom_filter.insert, List.all_eq_true]
  intro i hi
  exact test_bit_foldl_set_bit_mem hi
    (by rw [hr]; exact bit_byte_lt (hash_all_lt hm x i hi))

lemma contains_mono_insert {f : bloom_filter} {x : List Nat} (y : List Nat)
    (h : f.contains x = true) : (f.insert y).contains x = true := by
  simp only [bloom_filter.contains, bloom_filter.insert, List.all_eq_true] at h ⊢
  intro i hi
  exact test_bit_foldl_set_bit_mono (h i hi)

lemma contains_mono_containsinsert {f : bloom_filter} {x : List Nat}
    (y : List Nat) (h : f.contains x = true) :
    (f.containsinsert y).2.contains x = true := by
  by_cases hy : f.contains y
  · simp [bloom_filter.containsinsert, hy, h]
  · simp only [bloom_filter.containsinsert, hy, Bool.false_eq_true, if_false]
    have := contains_mono_insert y h
    simpa [bloom_filter.contains] using this

lemma contains_of_reaches {f g : bloom_filter} {x : List Nat}
    (hr : reaches_without_clear f g) (h : f.contains x = true) :
    g.contains x = true := by
  induction hr with
  | refl => exact h
  | step_insert y _ ih => exact contains_mono_insert y ih
  | step_containsinsert y _ ih => exact contains_mono_containsinsert y ih

lemma containsinsert_contains_self {f : bloom_filter} (x : List Nat)
    (hr : Ready f) (hm : 0 < f.table_size_bits) :
    (f.containsinsert x).2.contains x = true := by
  by_cases hx : f.contains x
  · simp [bloom_filter.containsinsert, hx]
  · simp only [bloom_filter.containsinsert, hx, Bool.false_eq_true, if_false]
    have := contains_insert_self x hr hm
    simpa [bloom_filter.contains] using this

lemma run_containsinsert_count (xs : List (List Nat)) (f : bloom_filter) :
    (run_containsinsert f xs).1.inserted_element_count =
      f.inserted_element_count + (run_containsinsert f xs).2.count false := by
  induction xs generalizing f with
  | nil => simp [run_containsinsert]
  | cons x xs ih =>
      simp only [run_containsinsert]
      by_cases hx : f.contains x
      · simp [bloom_filter.containsinsert, hx, ih, List.count_cons]
      · simp [bloom_filter.containsinsert, hx, ih, List.count_cons]
        omega

lemma load_filter_from_bytes_ready {bs : List Nat} {f : bloom_filter}
    (h : load_filter_from_bytes bs = some f) : Ready f := by
  simp only [load_filter_from_bytes] at h
  split at h
  · simp at h
  · split at h
    · simp at h
    · split at h
      · rename_i hlen
        cases h
        exact hlen
      · simp at h

/-! ## Claim theorems -/

/-- C9: on a NULL index handle, `bfi_addr_is_stored` returns false,
`bfi_stored_item_cnt` returns 0, and `bfi_add_addr_index` and
`bfi_clear_index` return `BFI_E_NO_INDEX`; none of the four operations
mutates any state (the handle stays NULL and no filter is produced). -/
theorem claim_C9_null_handle :
    (∀ x, bfi_addr_is_stored none x = false) ∧
    bfi_stored_item_cnt none = 0 ∧
    (∀ x, bfi_add_addr_index none x = (BFI_E_NO_INDEX, none)) ∧
    bfi_clear_index none = (BFI_E_NO_INDEX, none) :=
  ⟨fun _ => rfl, rfl, fun _ => rfl, rfl⟩

/-- C10: for every filename, `bfi_store_index` on a NULL index handle
returns `BFI_E_NO_INDEX` and performs no file operation: the file-content
component is `none`, i.e. the destination file is never created or opened,
because the NULL check precedes the `fopen`. -/
theorem claim_C10_store_null_no_file (filename : String) :
    bfi_store_index none filename = (BFI_E_NO_INDEX, none) :=
  rfl

/-- C4: no false negatives: an item inserted via `insert` or
`containsinsert` into a Ready filter with a non-empty bit range is contained
in every later state reached by further `insert`/`containsinsert` calls with
no intervening `clear`. -/
theorem claim_C4_no_false_negatives (f f1 f2 : bloom_filter) (x : List Nat)
    (hr : Ready f) (hm : 0 < f.table_size_bits)
    (hins : f1 = f.insert x ∨ f1 = (f.containsinsert x).2)
    (hreach : reaches_without_clear f1 f2) :
    f2.contains x = true := by
  refine contains_of_reaches hreach ?_
  rcases hins with rfl | rfl
  · exact contains_insert_self x hr hm
  · exact containsinsert_contains_self x hr hm

/-- Witness for C4 at a concrete input. -/
theorem claim_C4_witness :
    Ready sample_filter ∧ 0 < sample_filter.table_size_bits ∧
      (sample_filter.insert [10, 0, 0, 1]).contains [10, 0, 0, 1] = true :=
  ⟨by decide, by decide,
    claim_C4_no_false_negatives sample_filter _ _ [10, 0, 0, 1] (by decide)
      (by decide) (Or.inl rfl) (reaches_without_clear.refl _)⟩

/-- C7: `clear` resets the counter to 0 and zeroes every bit while leaving
`table_size_bits`, the salt sequence and `hash_function_count` unchanged;
the cleared filter equals one freshly built from the same parameters, and
contains no item (for a filter with at least one hash function).  The
facade's `bfi_clear_index` applies exactly this operation. -/
theorem claim_C7_clear_resets (f : bloom_filter) :
    f.clear.inserted_element_count = 0 ∧
    f.clear.table_size_bits = f.table_size_bits ∧
    f.clear.salt = f.salt ∧
    f.clear.hash_function_count = f.hash_function_count ∧
    (f.salt ≠ [] → ∀ x, f.clear.contains x = false) ∧
    (Ready f → f.clear = fresh_filter f.table_size_bits f.salt) ∧
    bfi_clear_index (some f) = (BFI_E_OK, some f.clear) := by
  refine ⟨rfl, rfl, rfl, rfl, ?_, ?_, rfl⟩
  · intro hne x
    have hz : ∀ i, test_bit (f.bit_table.map fun _ => 0) i = false := by
      intro i
      rw [List.map_const']
      exact test_bit_zero_table _ _
    obtain ⟨s, rest, hsalt⟩ := List.exists_cons_of_ne_nil hne
    simp only [bloom_filter.contains, bloom_filter.clear, hash_all, hsalt,
      List.map_cons, List.all_cons, List.map_const', test_bit_zero_table,
      Bool.false_and]
  · intro hr
    cases f with
    | mk m salts cnt table =>
        simp only [bloom_filter.clear, fresh_filter, bloom_filter.mk.injEq,
          true_and]
        rw [List.map_const']
        rw [show table.length = (m + 7) / bits_per_byte from hr]

/-- Witness for C7 at a concrete input. -/
theorem claim_C7_witness :
    sample_filter.clear.contains [10, 0, 0, 1] = false ∧
      sample_filter.clear = fresh_filter 8 [1, 2] := by
  obtain ⟨-, -, -, -, hcont, hfresh, -⟩ := claim_C7_clear_resets sample_filter
  exact ⟨hcont (by decide) [10, 0, 0, 1], hfresh (by decide)⟩

/-- C2: `containsinsert` semantics: when all `k` hashed bit positions of the
item are already set it returns `true` and performs no mutation (in
particular `inserted_element_count` is unchanged); otherwise it sets the
missing bits (afterwards the item is contained), increments
`inserted_element_count` by exactly 1 and returns `false`; over any call
sequence the counter grows by exactly the number of calls that returned
`false`.  `bfi_add_addr_index` applies exactly this operation. -/
theorem claim_C2_containsinsert_semantics (f : bloom_filter) (x : List Nat) :
    (f.contains x = true → f.containsinsert x = (true, f)) ∧
    (f.contains x = false →
      (f.containsinsert x).1 = false ∧
      (f.containsinsert x).2.inserted_element_count =
        f.inserted_element_count + 1 ∧
      (Ready f → 0 < f.table_size_bits →
        (f.containsinsert x).2.contains x = true)) ∧
    (∀ xs : List (List Nat),
      (run_containsinsert f xs).1.inserted_element_count =
        f.inserted_element_count + (run_containsinsert f xs).2.count false) ∧
    bfi_add_addr_index (some f) x = (BFI_E_OK, some (f.containsinsert x).2) := by
  refine ⟨?_, ?_, fun xs => run_containsinsert_count xs f, rfl⟩
  · intro h
    simp [bloom_filter.containsinsert, h]
  · intro h
    refine ⟨?_, ?_, fun hr hm => containsinsert_contains_self x hr hm⟩
    · simp [bloom_filter.containsinsert, h]
    · simp [bloom_filter.containsinsert, h]

/-- Witness for C2 at a concrete input: a fresh sample filter does not
contain the item, so the call returns `false`, bumps the counter, and a
repeated call returns `true` leaving the counter at 1. -/
theorem claim_C2_witness :
    (fresh_filter 8 [1, 2]).contains [10, 0, 0, 1] = false ∧
      ((fresh_filter 8 [1, 2]).containsinsert [10, 0, 0, 1]).1 = false ∧
      ((fresh_filter 8 [1, 2]).containsinsert [10, 0, 0, 1]).2.inserted_element_count =
        (fresh_filter 8 [1, 2]).inserted_element_count + 1 ∧
      (run_containsinsert (fresh_filter 8 [1, 2])
          [[10, 0, 0, 1], [10, 0, 0, 1]]).1.inserted_element_count =
        (fresh_filter 8 [1, 2]).inserted_element_count +
          ((run_containsinsert (fresh_filter 8 [1, 2])
            [[10, 0, 0, 1], [10, 0, 0, 1]]).2.count false) := by
  obtain ⟨-, h2, h3, -⟩ :=
    claim_C2_containsinsert_semantics (fresh_filter 8 [1, 2]) [10, 0, 0, 1]
  have hc : (fresh_filter 8 [1, 2]).contains [10, 0, 0, 1] = false := by decide
  obtain ⟨ha, hb, -⟩ := h2 hc
  exact ⟨hc, ha, hb, h3 [[10, 0, 0, 1], [10, 0, 0, 1]]⟩

/-- C3 counterexample: on a stream whose first two bytes are not the magic,
`bfi_load_index` does fail with `BFI_E_LOAD_BAD_MAGIC`, but the
deserialization destination is NOT left unmodified: `bf_index.c` assigns a
freshly created empty filter to `*index_ptr` before reading any byte, so a
prior destination value is overwritten even on this error. -/
theorem claim_C3_counterexample :
    (bfi_load_index (some [0, 0]) (some sample_filter)).1 =
        BFI_E_LOAD_BAD_MAGIC ∧
      (bfi_load_index (some [0, 0]) (some sample_filter)).2 ≠
        some sample_filter := by
  constructor
  · rfl
  · intro h
    have : empty_bloom_filter = sample_filter := by
      simpa [bfi_load_index, BFI_FILE_MAGIC, fromLE] using h
    simp [empty_bloom_filter, sample_filter] at this

/-- C3 amended: for every byte stream of at least two bytes whose first two
bytes do not decode to the magic constant, loading fails with
`BFI_E_LOAD_BAD_MAGIC`, and this is decided before any other content of the
stream is examined (the result is the same whatever follows the first two
bytes); no filter data from the stream is loaded — the destination holds the
freshly created empty filter assigned before the read. -/
theorem claim_C3_magic_check (s : List Nat) (d : Option bloom_filter)
    (h2 : 2 ≤ s.length) (hbad : fromLE (s.take 2) ≠ BFI_FILE_MAGIC) :
    bfi_load_index (some s) d =
      (BFI_E_LOAD_BAD_MAGIC, some empty_bloom_filter) := by
  simp only [bfi_load_index]
  rw [if_neg (by omega), if_pos hbad]

/-- Witness for the amended C3 at a concrete input. -/
theorem claim_C3_witness :
    bfi_load_index (some [0, 0, 1, 2, 3]) none =
      (BFI_E_LOAD_BAD_MAGIC, some empty_bloom_filter) :=
  claim_C3_magic_check [0, 0, 1, 2, 3] none (by decide) (by decide)

/-- C5: for every stored filter the emitted stream is, in order, the u16
magic constant, the u32 byte length of the payload, then the payload, which
itself is the filter's metadata (table size, hash count, counter, salts)
followed by the raw bit-array bytes in a fixed order; the store path fails
with `BFI_E_STO_BYTES` whenever the filter's byte representation has length
zero (under the spec-modelled payload this never happens: the payload always
carries its 20-byte metadata header). -/
theorem claim_C5_store_layout (f : bloom_filter) (filename : String) :
    ((get_filter_as_bytes f).length = 0 →
      (bfi_store_index (some f) filename).1 = BFI_E_STO_BYTES) ∧
    (get_filter_as_bytes f).length ≠ 0 ∧
    ∃ stream,
      bfi_store_index (some f) filename = (BFI_E_OK, some stream) ∧
      stream = toLE 2 BFI_FILE_MAGIC ++
        toLE 4 (get_filter_as_bytes f).length ++ get_filter_as_bytes f ∧
      fromLE (stream.take 2) = BFI_FILE_MAGIC ∧
      stream.drop 6 = get_filter_as_bytes f ∧
      ((get_filter_as_bytes f).length < 2 ^ 32 →
        fromLE ((stream.drop 2).take 4) = (stream.drop 6).length) ∧
      get_filter_as_bytes f =
        toLE 8 f.table_size_bits ++ toLE 4 f.hash_function_count ++
          toLE 8 f.inserted_element_count ++ f.salt.flatMap (toLE 4) ++
          f.bit_table := by
  have hne := get_filter_as_bytes_ne_nil f
  refine ⟨fun h => absurd h hne, hne, ?_⟩
  refine ⟨_, ?_, rfl, ?_, ?_, ?_, rfl⟩
  · simp only [bfi_store_index, if_neg hne]
  · rw [List.append_assoc, take_toLE_append,
      fromLE_toLE_of_lt (by norm_num [BFI_FILE_MAGIC])]
  · rw [List.append_assoc, show (6 : Nat) = 2 + 4 by rfl, ← List.drop_drop,
      drop_toLE_append, drop_toLE_append]
  · intro hlt
    rw [List.append_assoc, show (6 : Nat) = 2 + 4 by rfl, ← List.drop_drop,
      drop_toLE_append, take_toLE_append, drop_toLE_append,
      fromLE_toLE_of_lt (by norm_num at hlt ⊢; omega)]

/-- Witness for C5 at a concrete input. -/
theorem claim_C5_witness :
    (bfi_store_index (some sample_filter) "index.bfi").1 = BFI_E_OK ∧
      (get_filter_as_bytes sample_filter).length ≠ 0 := by
  obtain ⟨-, hne, s, hs, -⟩ := claim_C5_store_layout sample_filter "index.bfi"
  exact ⟨by rw [hs], hne⟩

/-- C6: on a stream with a valid magic, a declared payload length of 0 fails
with `BFI_E_LOAD_ZERO_LEN` (the empty-payload error), and a stream holding
fewer payload bytes than declared fails with `BFI_E_LOAD_INDEX` (the
truncated-read error); a successful load reconstructs a Ready filter from
exactly the first `payload_length` bytes after the 6-byte header. -/
theorem claim_C6_load_error_taxonomy (s : List Nat) (d : Option bloom_filter)
    (hmagic : fromLE (s.take 2) = BFI_FILE_MAGIC) :
    (6 ≤ s.length → fromLE ((s.drop 2).take 4) = 0 →
      bfi_load_index (some s) d =
        (BFI_E_LOAD_ZERO_LEN, some empty_bloom_filter)) ∧
    (6 ≤ s.length → fromLE ((s.drop 2).take 4) ≠ 0 →
      (s.drop 6).length < fromLE ((s.drop 2).take 4) →
      bfi_load_index (some s) d =
        (BFI_E_LOAD_INDEX, some empty_bloom_filter)) ∧
    (∀ f, bfi_load_index (some s) d = (BFI_E_OK, some f) →
      load_filter_from_bytes ((s.drop 6).take (fromLE ((s.drop 2).take 4))) =
          some f ∧ Ready f) := by
  have hbody : (s.drop 2).drop 4 = s.drop 6 := by
    rw [List.drop_drop]
  refine ⟨?_, ?_, ?_⟩
  · intro h6 hzero
    simp only [bfi_load_index]
    rw [if_neg (by omega), if_neg (by simp [hmagic]),
      if_neg (by simp only [List.length_drop]; omega), if_pos hzero]
  · intro h6 hzero hshort
    simp only [bfi_load_index]
    rw [if_neg (by omega), if_neg (by simp [hmagic]),
      if_neg (by simp only [List.length_drop]; omega), if_neg hzero,
      if_pos (by rw [hbody]; exact hshort)]
  · intro f h
    simp only [bfi_load_index] at h
    split at h
    · simp at h
    · split at h
      · simp at h
      · split at h
        · simp at h
        · split at h
          · simp at h
          · split at h
            · simp at h
            · split at h
              · simp at h
              · rename_i heq
                injection h with h1 h2
                injection h2 with h3
                subst h3
                rw [hbody] at heq
                exact ⟨heq, load_filter_from_bytes_ready heq⟩

/-- Witness for C6 at a concrete input: valid magic followed by a declared
payload length of 0. -/
theorem claim_C6_witness :
    bfi_load_index (some (toLE 2 BFI_FILE_MAGIC ++ [0, 0, 0, 0])) none =
      (BFI_E_LOAD_ZERO_LEN, some empty_bloom_filter) :=
  (claim_C6_load_error_taxonomy (toLE 2 BFI_FILE_MAGIC ++ [0, 0, 0, 0]) none
      (by decide)).1 (by decide) (by decide)

/-- C1: serialization round trip: storing a Ready filter and loading the
resulting byte stream succeeds and yields a filter that agrees with the
original on `contains` for every item, on `inserted_element_count`, and
byte-for-byte on the bit pattern (indeed the loaded filter equals the
original).  The side conditions bound the fields by their C integer widths
(u64 table size and counter, u32 salt values and payload length). -/
theorem claim_C1_roundtrip (f : bloom_filter) (d : Option bloom_filter)
    (filename : String) (hr : Ready f)
    (hm : f.table_size_bits < 2 ^ 64)
    (hc : f.inserted_element_count < 2 ^ 64)
    (hk : f.salt.length < 2 ^ 32)
    (hs : ∀ s ∈ f.salt, s < 2 ^ 32)
    (hlen : (get_filter_as_bytes f).length < 2 ^ 32) :
    ∃ stream, bfi_store_index (some f) filename = (BFI_E_OK, some stream) ∧
      ∃ f', bfi_load_index (some stream) d = (BFI_E_OK, some f') ∧
        (∀ x, f'.contains x = f.contains x) ∧
        f'.inserted_element_count = f.inserted_element_count ∧
        f'.bit_table = f.bit_table := by
  have hne := get_filter_as_bytes_ne_nil f
  have h20 : 20 ≤ (get_filter_as_bytes f).length := by
    rw [get_filter_as_bytes_length]; omega
  refine ⟨toLE 2 BFI_FILE_MAGIC ++
    (toLE 4 (get_filter_as_bytes f).length ++ get_filter_as_bytes f), ?_, ?_⟩
  · simp only [bfi_store_index, if_neg hne, List.append_assoc]
  · refine ⟨f, ?_, fun x => rfl, rfl, rfl⟩
    have hL : fromLE (toLE 4 (get_filter_as_bytes f).length) =
        (get_filter_as_bytes f).length :=
      fromLE_toLE_of_lt (by norm_num at hlen ⊢; omega)
    simp only [bfi_load_index]
    rw [if_neg (by
      simp only [List.length_append, toLE_length]; omega)]
    rw [if_neg (by
      rw [take_toLE_append,
        fromLE_toLE_of_lt (by norm_num [BFI_FILE_MAGIC])]
      exact not_ne_iff.mpr rfl)]
    rw [drop_toLE_append]
    rw [if_neg (by
      simp only [List.length_append, toLE_length]; omega)]
    rw [take_toLE_append, hL, if_neg (by omega), drop_toLE_append,
      if_neg (by omega), List.take_length,
      load_get_filter_as_bytes f hr hm hc hk hs]

/-- Witness for C1 at a concrete input. -/
theorem claim_C1_witness :
    ∃ stream f',
      bfi_store_index (some sample_filter) "index.bfi" =
          (BFI_E_OK, some stream) ∧
        bfi_load_index (some stream) none = (BFI_E_OK, some f') ∧
        f'.inserted_element_count = sample_filter.inserted_element_count ∧
        f'.bit_table = sample_filter.bit_table := by
  obtain ⟨s, h1, f', h2, -, h4, h5⟩ :=
    claim_C1_roundtrip sample_filter none "index.bfi" (by decide) (by decide)
      (by decide) (by decide) (by decide) (by decide)
  exact ⟨s, f', h1, h2, h4, h5⟩

/-- C8: for `n > 0` and `0 < p < 1`, parameter optimization succeeds and
sets the bit-array size to `m = ceil(-n * ln(p) / (ln 2)^2)` with a minimum
of 8 bits rounded up to a whole number of bytes (so `8 ≤ m` and `8 ∣ m`),
and the hash count to `k = round((m / n) * ln 2)` clamped to
`[1, max_supported_hashes]` (so `1 ≤ k ≤ 32`); when the preconditions are
violated it fails. -/
theorem claim_C8_optimal_parameters (n : Nat) (p : ℝ) :
    (¬(0 < n ∧ 0 < p ∧ p < 1) → compute_optimal_parameters n p = none) ∧
    ((0 < n ∧ 0 < p ∧ p < 1) →
      compute_optimal_parameters n p = some (optimal_m n p, optimal_k n p) ∧
      optimal_m n p = bits_per_byte *
        ((max ⌈-(n : ℝ) * Real.log p / (Real.log 2) ^ 2⌉₊ 8 + 7) /
          bits_per_byte) ∧
      8 ≤ optimal_m n p ∧ 8 ∣ optimal_m n p ∧
      optimal_k n p =
        min (max (round ((optimal_m n p : ℝ) / (n : ℝ) * Real.log 2)).toNat 1)
          max_supported_hashes ∧
      1 ≤ optimal_k n p ∧ optimal_k n p ≤ max_supported_hashes) := by
  constructor
  · intro h
    simp only [compute_optimal_parameters, if_neg h]
  · intro h
    refine ⟨by simp only [compute_optimal_parameters, if_pos h], rfl, ?_, ?_,
      rfl, ?_, ?_⟩
    · have h8 : 8 ≤ max ⌈-(n : ℝ) * Real.log p / (Real.log 2) ^ 2⌉₊ 8 :=
        le_max_right _ 8
      simp only [optimal_m, bits_per_byte]
      omega
    · exact Dvd.intro _ rfl
    · simp only [optimal_k, max_supported_hashes]
      omega
    · simp only [optimal_k, max_supported_hashes]
      omega

/-- Witness for C8 at a concrete input (`n = 1000`, `p = 1/2`). -/
theorem claim_C8_witness :
    compute_optimal_parameters 1000 (1 / 2 : ℝ) =
        some (optimal_m 1000 (1 / 2), optimal_k 1000 (1 / 2)) ∧
      8 ≤ optimal_m 1000 (1 / 2 : ℝ) ∧
      1 ≤ optimal_k 1000 (1 / 2 : ℝ) ∧
      optimal_k 1000 (1 / 2 : ℝ) ≤ max_supported_hashes ∧
      compute_optimal_parameters 1000 (2 : ℝ) = none := by
  obtain ⟨hfail, hok⟩ := claim_C8_optimal_parameters 1000 (1 / 2 : ℝ)
  obtain ⟨he, -, hm8, -, -, hk1, hk32⟩ := hok (by norm_num)
  obtain ⟨hfail2, -⟩ := claim_C8_optimal_parameters 1000 (2 : ℝ)
  exact ⟨he, hm8, hk1, hk32, hfail2 (by norm_num)⟩
